import Mathlib

/-!
Verification of the zdesk frame-transport subsystem.

The definitions below are a shallow embedding of the Python sources
`zdesk_server.py` (class StreamThread) and `zdesk_client.py`
(class ReceiveThread).  Bytes are modelled as natural numbers, byte
strings as lists, and the TCP byte stream delivered to the client as a
list of nonempty chunks (each chunk is one return value of socket.recv;
an exhausted chunk list models the peer closing the connection, where
recv returns an empty byte string).
-/

set_option autoImplicit false

namespace ZDesk

/-- A byte string: Python bytes, one Nat per byte. -/
abbrev Bytes := List Nat

/-- A chunked byte stream: the sequence of values successive socket.recv
calls deliver.  The concatenation is the wire content; chunk boundaries
are arbitrary (the network may deliver one byte at a time). -/
abbrev Stream := List Bytes

/-- Concatenation of the chunks of a stream. -/
def flat : Stream → Bytes
  | [] => []
  | c :: r => c ++ flat r

/-- Well-formed stream: socket.recv never returns an empty chunk except
at end of stream, so every queued chunk is nonempty. -/
def WF (s : Stream) : Prop := ∀ c ∈ s, c ≠ []

instance (s : Stream) : Decidable (WF s) := by
  unfold WF; infer_instance

/-- struct.pack with format !I: 4-byte big-endian unsigned encoding of a
length, as used in StreamThread.stream_to_client. -/
def pack32 (n : Nat) : Bytes :=
  [n / 16777216 % 256, n / 65536 % 256, n / 256 % 256, n % 256]

/-- struct.unpack with format !I applied to a 4-byte string, as used in
ReceiveThread.run; any other shape never occurs there. -/
def unpack32 : Bytes → Nat
  | [a, b, c, d] => a * 16777216 + b * 65536 + c * 256 + d
  | _ => 0

/-- socket.recv k on a chunked stream: deliver at most k bytes from the
front chunk, pushing back the unread remainder; an empty result models a
closed connection. -/
def recv (k : Nat) : Stream → Bytes × Stream
  | [] => ([], [])
  | c :: rest =>
      let taken := c.take k
      let left := c.drop k
      (taken, if left = [] then rest else left :: rest)

/-- ReceiveThread.recv_exact: accumulate chunks until exactly size bytes
are read.  Returns none when the stream closes first, or when the running
flag is observed false before the read completes.

run models the successive reads of self.running at the top of the while
loop (index i is the iteration count); in normal operation every read is
true.  The final line mirrors the Python
return data if len(data) == size else None. -/
def recv_exact (run : Nat → Bool) (size : Nat) (i : Nat) (data : Bytes)
    (s : Stream) : Option Bytes × Stream :=
  if hrun : data.length < size ∧ run i then
    let p := recv (size - data.length) s
    if h : p.1 = [] then (none, p.2)
    else recv_exact run size (i + 1) (data ++ p.1) p.2
  else ((if data.length = size then some data else none), s)
  termination_by size - data.length
  decreasing_by
    have hlen : 0 < (recv (size - data.length) s).1.length :=
      List.length_pos.mpr h
    have hlt : data.length < size := hrun.1
    simp only [List.length_append]
    omega

/-- One framed unit written by StreamThread.stream_to_client: the packed
4-byte length followed by the payload. -/
def wire_message (p : Bytes) : Bytes := pack32 p.length ++ p

/-- The byte sequence the server writes for a list of payloads. -/
def wire_stream (ps : List Bytes) : Bytes := (ps.map wire_message).flatten

/-- An RGB888 image as both QImage and PIL Image carry it across the
codec: width, height, and the raw pixel byte buffer (3 bytes per pixel
when well formed). -/
structure Img where
  width : Nat
  height : Nat
  data : Bytes
  deriving DecidableEq

/-- A well-formed RGB888 frame: exactly width times height times 3 pixel
bytes, positive dimensions bounded by the uint32 framing constraint. -/
def Img.wf (f : Img) : Prop :=
  0 < f.width ∧ 0 < f.height ∧ f.width < 4294967296 ∧
    f.height < 4294967296 ∧ f.data.length = f.width * f.height * 3

/-- Modelled from the spec: the lossy pixel transformation the external
PIL JPEG encoder applies at a given quality (higher quality keeps more
fidelity).  It preserves the buffer length, which is all the dimension
and framing claims depend on. -/
def jpeg_lossy (quality : Nat) (px : Bytes) : Bytes :=
  px.map (fun b => b / (101 - min quality 100) * (101 - min quality 100))

/-- Modelled from the spec: the external PIL JPEG encoder
(pil_image.save with format JPEG).  A JPEG payload records the image
dimensions in its header followed by lossy-compressed pixel content;
only that structure is relied on here. -/
def jpeg_encode (quality : Nat) (w h : Nat) (px : Bytes) : Bytes :=
  pack32 w ++ pack32 h ++ jpeg_lossy quality px

/-- Modelled from the spec: the external PIL JPEG decoder (Image.open
followed by tobytes).  It recovers the dimensions and pixel buffer from
a well-formed payload and fails (raises, in Python) on a malformed or
truncated one; the length check models truncation detection. -/
def jpeg_decode (d : Bytes) : Option (Nat × Nat × Bytes) :=
  match d with
  | b0 :: b1 :: b2 :: b3 :: b4 :: b5 :: b6 :: b7 :: rest =>
      if rest.length
          = unpack32 [b0, b1, b2, b3] * unpack32 [b4, b5, b6, b7] * 3 then
        some (unpack32 [b0, b1, b2, b3], unpack32 [b4, b5, b6, b7], rest)
      else none
  | _ => none

/-- StreamThread.compress_frame: record width and height, convert to
RGB888 (the model already holds RGB888 bytes), hand the raw buffer to
the PIL JPEG encoder at the configured quality. -/
def compress_frame (quality : Nat) (qimage : Img) : Bytes :=
  jpeg_encode quality qimage.width qimage.height qimage.data

/-- ReceiveThread.decompress_frame: open the JPEG payload with PIL,
rebuild a QImage of the decoded width and height; any decoder failure is
caught and reported as None. -/
def decompress_frame (d : Bytes) : Option Img :=
  match jpeg_decode d with
  | some (w, h, px) => some ⟨w, h, px⟩
  | none => none

/-- StreamThread.set_frame: unconditionally overwrite the single
current_frame slot (None models a slot never written). -/
def set_frame (_slot : Option Img) (qimage : Img) : Option Img :=
  some qimage

/-- The streamer reading of the current_frame slot in
stream_to_client: it returns the stored frame and leaves the slot
unchanged (the reference implementation never clears it). -/
def read_frame (slot : Option Img) : Option Img × Option Img :=
  (slot, slot)

/-- One iteration of stream_to_client as the streamer observes it: the
value of the current_frame slot at the top of the loop, and whether the
socket writes of this iteration succeed (false models a raised
BrokenPipeError, ConnectionResetError or other send exception). -/
structure StreamStep where
  slot : Option Img
  sendOk : Bool

/-- StreamThread.stream_to_client: per iteration, skip when the slot is
empty, compress, skip when the payload is empty, otherwise send the
4-byte packed length and the payload; any send exception breaks out of
the loop at once.  Returns the bytes written to the socket and whether
the loop ended on a send error. -/
def stream_to_client (quality : Nat) : List StreamStep → Bytes × Bool
  | [] => ([], false)
  | st :: rest =>
      match st.slot with
      | none => stream_to_client quality rest
      | some img =>
          if compress_frame quality img = [] then
            stream_to_client quality rest
          else if st.sendOk then
            (wire_message (compress_frame quality img)
                ++ (stream_to_client quality rest).1,
              (stream_to_client quality rest).2)
          else ([], true)

/-- One pass of the accept loop in StreamThread.run: either the accept
times out (and the loop re-checks the running flag), or a client
connects and the whole streaming session to it runs. -/
inductive AcceptEvent where
  | timeout : AcceptEvent
  | conn : List StreamStep → AcceptEvent

/-- StreamThread.run while the running flag holds: each accepted client
is served by stream_to_client, its socket is closed afterwards in the
finally block, and the loop keeps accepting.  Returns one
(bytes written, ended-on-send-error) record per completed session. -/
def server_run (quality : Nat) : List AcceptEvent → List (Bytes × Bool)
  | [] => []
  | AcceptEvent.timeout :: rest => server_run quality rest
  | AcceptEvent.conn steps :: rest =>
      stream_to_client quality steps :: server_run quality rest

/-- The always-true running schedule: a client that is never stopped. -/
def alwaysRun : Nat → Bool := fun _ => true

/-- The receive loop of ReceiveThread.run: read a 4-byte size header,
then exactly that many payload bytes, decode, emit on success, continue
on decode failure; break when either read comes back falsy (None, or an
empty byte string).  decode abstracts decompress_frame so properties of
the loop hold for any decoder; fuel bounds the number of iterations of
the while self.running loop (the running flag read as true fuel times).
recv_exact is a pure function here, so repeating its application denotes
the one read the Python code performs.  Returns the payloads read off
the wire and the frames emitted to the sink. -/
def receive_loop {α : Type} (decode : Bytes → Option α) :
    Nat → Stream → List Bytes × List α
  | 0, _ => ([], [])
  | fuel + 1, s =>
      match (recv_exact alwaysRun 4 0 [] s).1 with
      | none => ([], [])
      | some size_data =>
          if size_data = [] then ([], [])
          else
            match (recv_exact alwaysRun (unpack32 size_data) 0 []
                (recv_exact alwaysRun 4 0 [] s).2).1 with
            | none => ([], [])
            | some frame_data =>
                if frame_data = [] then ([], [])
                else
                  match decode frame_data with
                  | some img =>
                      (frame_data ::
                          (receive_loop decode fuel
                            (recv_exact alwaysRun (unpack32 size_data) 0 []
                              (recv_exact alwaysRun 4 0 [] s).2).2).1,
                        img ::
                          (receive_loop decode fuel
                            (recv_exact alwaysRun (unpack32 size_data) 0 []
                              (recv_exact alwaysRun 4 0 [] s).2).2).2)
                  | none =>
                      (frame_data ::
                          (receive_loop decode fuel
                            (recv_exact alwaysRun (unpack32 size_data) 0 []
                              (recv_exact alwaysRun 4 0 [] s).2).2).1,
                        (receive_loop decode fuel
                          (recv_exact alwaysRun (unpack32 size_data) 0 []
                            (recv_exact alwaysRun 4 0 [] s).2).2).2)

/-- The Qt spin box backing the server quality setting: a value clamped
to a closed range, as QSpinBox keeps it. -/
structure SpinBox where
  lo : Int
  hi : Int
  val : Int
  deriving DecidableEq

/-- QSpinBox.setRange: install the bounds and clamp the current value
into them. -/
def setRange (sb : SpinBox) (lo hi : Int) : SpinBox :=
  ⟨lo, hi, max lo (min hi sb.val)⟩

/-- QSpinBox.setValue: store the value clamped into the current range. -/
def setValue (sb : SpinBox) (v : Int) : SpinBox :=
  ⟨sb.lo, sb.hi, max sb.lo (min sb.hi v)⟩

/-- The quality spin box as ServerWindow builds it: a default QSpinBox
(range 0 to 99, value 0), then setRange(10, 100) and setValue(60). -/
def quality_spin : SpinBox :=
  setValue (setRange ⟨0, 99, 0⟩ 10 100) 60

/-- The server accepts quality q when entering it into the quality spin
box leaves exactly q configured (toggle_server then passes
quality_spin.value() to StreamThread unchanged). -/
def acceptsQuality (q : Int) : Prop :=
  (setValue quality_spin q).val = q

instance (q : Int) : Decidable (acceptsQuality q) := by
  unfold acceptsQuality; infer_instance

/-- A trailing byte sequence that does not contain one complete
WireMessage: either the 4-byte header itself is cut short, or the header
advertises more payload bytes than follow before the close. -/
def Incomplete (junk : Bytes) : Prop :=
  junk.length < 4 ∨
    ∃ m t, junk = pack32 m ++ t ∧ t.length < m ∧ m < 4294967296

lemma pack32_length (m : Nat) : (pack32 m).length = 4 := rfl

lemma pack32_ne_nil (m : Nat) : pack32 m ≠ [] := by
  intro h
  have := congrArg List.length h
  simp [pack32_length] at this

lemma unpack_pack (m : Nat) (h : m < 4294967296) :
    unpack32 (pack32 m) = m := by
  simp only [pack32, unpack32]
  omega

lemma flat_recv (k : Nat) (s : Stream) :
    (recv k s).1 ++ flat (recv k s).2 = flat s := by
  cases s with
  | nil => rfl
  | cons c rest =>
      simp only [recv]
      by_cases hd : c.drop k = []
      · have hc : c.take k = c := by
          have h2 := List.take_append_drop k c
          rw [hd, List.append_nil] at h2
          exact h2
        simp [hd, hc, flat]
      · simp only [hd, if_neg hd, flat]
        rw [← List.append_assoc, List.take_append_drop]

lemma WF_recv (k : Nat) (s : Stream) (h : WF s) : WF (recv k s).2 := by
  cases s with
  | nil => intro c hc; cases hc
  | cons c rest =>
      simp only [recv]
      by_cases hd : c.drop k = []
      · simp only [hd, if_pos rfl]
        intro x hx
        exact h x (List.mem_cons_of_mem _ hx)
      · simp only [if_neg hd]
        intro x hx
        rcases List.mem_cons.mp hx with h1 | h2
        · rw [h1]; exact hd
        · exact h x (List.mem_cons_of_mem _ h2)

lemma recv_take_ne_nil (k : Nat) (s : Stream) (h : WF s) (hs : s ≠ [])
    (hk : 0 < k) : (recv k s).1 ≠ [] := by
  cases s with
  | nil => exact absurd rfl hs
  | cons c rest =>
      simp only [recv]
      have hc : c ≠ [] := h c (List.mem_cons_self c rest)
      have hpos : 0 < (c.take k).length := by
        rw [List.length_take]
        exact lt_min hk (List.length_pos.mpr hc)
      exact List.ne_nil_of_length_pos hpos

lemma recv_len_le (k : Nat) (s : Stream) : (recv k s).1.length ≤ k := by
  cases s with
  | nil => simp [recv]
  | cons c rest =>
      simp only [recv, List.length_take]
      exact Nat.min_le_left _ _

lemma recv_exact_at_size (run : Nat → Bool) (size i : Nat) (data : Bytes)
    (s : Stream) (heq : data.length = size) :
    recv_exact run size i data s = (some data, s) := by
  rw [recv_exact]
  rw [dif_neg (fun hc => absurd hc.1 (by omega))]
  rw [if_pos heq]

lemma recv_exact_spec :
    ∀ (k size : Nat) (data : Bytes) (s : Stream) (i : Nat),
      size - data.length ≤ k → WF s → data.length ≤ size →
      size - data.length ≤ (flat s).length →
      (recv_exact alwaysRun size i data s).1
          = some (data ++ (flat s).take (size - data.length)) ∧
        flat (recv_exact alwaysRun size i data s).2
          = (flat s).drop (size - data.length) ∧
        WF (recv_exact alwaysRun size i data s).2 := by
  intro k
  induction k with
  | zero =>
      intro size data s i hk hwf hle hlen
      have heq : data.length = size := by omega
      rw [recv_exact_at_size _ _ _ _ _ heq]
      have h0 : size - data.length = 0 := by omega
      simp [h0, hwf]
  | succ k ih =>
      intro size data s i hk hwf hle hlen
      by_cases hlt : data.length < size
      · have hs : s ≠ [] := by
          intro hnil
          rw [hnil] at hlen
          simp [flat] at hlen
          omega
        have hcne : (recv (size - data.length) s).1 ≠ [] :=
          recv_take_ne_nil _ _ hwf hs (by omega)
        rw [recv_exact]
        rw [dif_pos ⟨hlt, rfl⟩]
        simp only [dif_neg hcne]
        have hflat := flat_recv (size - data.length) s
        have hwf2 := WF_recv (size - data.length) s hwf
        have hclen := recv_len_le (size - data.length) s
        have hcpos : 0 < (recv (size - data.length) s).1.length :=
          List.length_pos.mpr hcne
        have hslen : (flat s).length
            = (recv (size - data.length) s).1.length
              + (flat (recv (size - data.length) s).2).length := by
          rw [← hflat, List.length_append]
        obtain ⟨h1, h2, h3⟩ :=
          ih size (data ++ (recv (size - data.length) s).1)
            (recv (size - data.length) s).2 (i + 1)
            (by simp only [List.length_append]; omega) hwf2
            (by simp only [List.length_append]; omega)
            (by simp only [List.length_append]; omega)
        have hidx : size - (data ++ (recv (size - data.length) s).1).length
            = size - data.length - (recv (size - data.length) s).1.length := by
          simp only [List.length_append]
          omega
        refine ⟨?_, ?_, h3⟩
        · rw [h1, hidx, ← hflat, List.take_append_eq_append_take,
            List.take_of_length_le hclen, List.append_assoc]
        · rw [h2, hidx, ← hflat, List.drop_append_eq_append_drop,
            List.drop_of_length_le hclen, List.nil_append]
      · have heq : data.length = size := by omega
        rw [recv_exact_at_size _ _ _ _ _ heq]
        have h0 : size - data.length = 0 := by omega
        simp [h0, hwf]

lemma recv_exact_none :
    ∀ (k size : Nat) (data : Bytes) (s : Stream) (i : Nat),
      size - data.length ≤ k → WF s →
      (flat s).length < size - data.length →
      (recv_exact alwaysRun size i data s).1 = none := by
  intro k
  induction k with
  | zero =>
      intro size data s i hk hwf hlen
      omega
  | succ k ih =>
      intro size data s i hk hwf hlen
      have hlt : data.length < size := by omega
      rw [recv_exact]
      rw [dif_pos ⟨hlt, rfl⟩]
      by_cases hcne : (recv (size - data.length) s).1 = []
      · simp only [dif_pos hcne]
      · simp only [dif_neg hcne]
        have hflat := flat_recv (size - data.length) s
        have hclen := recv_len_le (size - data.length) s
        have hcpos : 0 < (recv (size - data.length) s).1.length :=
          List.length_pos.mpr hcne
        have hslen : (flat s).length
            = (recv (size - data.length) s).1.length
              + (flat (recv (size - data.length) s).2).length := by
          rw [← hflat, List.length_append]
        exact ih size (data ++ (recv (size - data.length) s).1)
          (recv (size - data.length) s).2 (i + 1)
          (by simp only [List.length_append]; omega)
          (WF_recv _ _ hwf)
          (by simp only [List.length_append]; omega)

lemma recv_exact_some_length (run : Nat → Bool) :
    ∀ (k size : Nat) (data : Bytes) (s : Stream) (i : Nat) (d : Bytes),
      size - data.length ≤ k →
      (recv_exact run size i data s).1 = some d → d.length = size := by
  intro k
  induction k with
  | zero =>
      intro size data s i d hk h
      rw [recv_exact] at h
      rw [dif_neg (fun hc => absurd hc.1 (by omega))] at h
      by_cases heq : data.length = size
      · rw [if_pos heq] at h
        cases h
        exact heq
      · rw [if_neg heq] at h
        cases h
  | succ k ih =>
      intro size data s i d hk h
      by_cases hcond : data.length < size ∧ run i = true
      · rw [recv_exact] at h
        rw [dif_pos hcond] at h
        by_cases hcne : (recv (size - data.length) s).1 = []
        · simp only [dif_pos hcne] at h
          cases h
        · simp only [dif_neg hcne] at h
          have hcpos : 0 < (recv (size - data.length) s).1.length :=
            List.length_pos.mpr hcne
          exact ih size (data ++ (recv (size - data.length) s).1)
            (recv (size - data.length) s).2 (i + 1) d
            (by simp only [List.length_append]; omega) h
      · rw [recv_exact] at h
        rw [dif_neg hcond] at h
        by_cases heq : data.length = size
        · rw [if_pos heq] at h
          cases h
          exact heq
        · rw [if_neg heq] at h
          cases h

lemma recv_exact_stopped (run : Nat → Bool) (size i : Nat) (data : Bytes)
    (s : Stream) (hstop : run i = false) (hlt : data.length < size) :
    (recv_exact run size i data s).1 = none := by
  rw [recv_exact]
  rw [dif_neg (fun hc => by rw [hstop] at hc; exact Bool.noConfusion hc.2)]
  simp [Nat.ne_of_lt hlt]

lemma wire_stream_nil : wire_stream [] = [] := rfl

lemma wire_stream_cons (p : Bytes) (ps : List Bytes) :
    wire_stream (p :: ps) = pack32 p.length ++ (p ++ wire_stream ps) := by
  simp [wire_stream, wire_message]

/-- Main behaviour of the client receive loop: fed any chunking of the
bytes the server framed for payloads ps, followed by any incomplete
trailing fragment, the loop reads back exactly ps in order, hands each
payload to the decoder, emits the successfully decoded frames, and
terminates at the fragment. -/
lemma receive_loop_spec {α : Type} (decode : Bytes → Option α) :
    ∀ (ps : List Bytes) (fuel : Nat) (s : Stream) (junk : Bytes),
      WF s → flat s = wire_stream ps ++ junk →
      (∀ p ∈ ps, p ≠ [] ∧ p.length < 4294967296) →
      ps.length < fuel → Incomplete junk →
      receive_loop decode fuel s = (ps, List.filterMap decode ps) := by
  intro ps
  induction ps with
  | nil =>
      intro fuel s junk hwf hflat hp hfuel hjunk
      cases fuel with
      | zero => simp at hfuel
      | succ fuel =>
          rw [wire_stream_nil, List.nil_append] at hflat
          rcases hjunk with hshort | ⟨m, t, hj, htm, hm32⟩
          · have hnone : (recv_exact alwaysRun 4 0 [] s).1 = none := by
              refine recv_exact_none 4 4 [] s 0 (by simp) hwf ?_
              simp only [List.length_nil, Nat.sub_zero]
              rw [hflat]
              exact hshort
            simp [receive_loop, hnone]
          · rw [hj] at hflat
            have hlen4 : 4 - ([] : Bytes).length ≤ (flat s).length := by
              rw [hflat]
              simp [pack32_length]
            obtain ⟨ha1, ha2, ha3⟩ :=
              recv_exact_spec 4 4 [] s 0 (by simp) hwf (by simp) hlen4
            simp only [List.length_nil, Nat.sub_zero, List.nil_append]
              at ha1 ha2
            have h4 : (4 : Nat) = (pack32 m).length := (pack32_length m).symm
            have htake : (flat s).take 4 = pack32 m := by
              rw [hflat, h4, List.take_left]
            have hdrop : (flat s).drop 4 = t := by
              rw [hflat, h4, List.drop_left]
            rw [htake] at ha1
            rw [hdrop] at ha2
            have hnone2 : (recv_exact alwaysRun (unpack32 (pack32 m)) 0 []
                (recv_exact alwaysRun 4 0 [] s).2).1 = none := by
              rw [unpack_pack m hm32]
              refine recv_exact_none m m [] _ 0 (by simp) ha3 ?_
              simp only [List.length_nil, Nat.sub_zero]
              rw [ha2]
              exact htm
            simp [receive_loop, ha1, pack32_ne_nil, hnone2]
  | cons p rest ih =>
      intro fuel s junk hwf hflat hp hfuel hjunk
      cases fuel with
      | zero => simp at hfuel
      | succ fuel =>
          rw [wire_stream_cons, List.append_assoc] at hflat
          have hpne : p ≠ [] := (hp p (List.mem_cons_self p rest)).1
          have hp32 : p.length < 4294967296 :=
            (hp p (List.mem_cons_self p rest)).2
          have hlen4 : 4 - ([] : Bytes).length ≤ (flat s).length := by
            rw [hflat]
            simp [pack32_length]
          obtain ⟨ha1, ha2, ha3⟩ :=
            recv_exact_spec 4 4 [] s 0 (by simp) hwf (by simp) hlen4
          simp only [List.length_nil, Nat.sub_zero, List.nil_append]
            at ha1 ha2
          have h4 : (4 : Nat) = (pack32 p.length).length :=
            (pack32_length p.length).symm
          have htake : (flat s).take 4 = pack32 p.length := by
            rw [hflat, h4, List.take_left]
          have hdrop : (flat s).drop 4 = p ++ (wire_stream rest ++ junk) := by
            rw [hflat, h4, List.drop_left, List.append_assoc]
          rw [htake] at ha1
          rw [hdrop] at ha2
          have hlenp : p.length - ([] : Bytes).length
              ≤ (flat (recv_exact alwaysRun 4 0 [] s).2).length := by
            rw [ha2]
            simp
          obtain ⟨hb1, hb2, hb3⟩ :=
            recv_exact_spec p.length p.length []
              (recv_exact alwaysRun 4 0 [] s).2 0 (by simp) ha3 (by simp) hlenp
          simp only [List.length_nil, Nat.sub_zero, List.nil_append]
            at hb1 hb2
          rw [ha2] at hb1 hb2
          have htkp : (p ++ (wire_stream rest ++ junk)).take p.length = p :=
            List.take_left p _
          have hdrp : (p ++ (wire_stream rest ++ junk)).drop p.length
              = wire_stream rest ++ junk :=
            List.drop_left p _
          rw [htkp] at hb1
          rw [hdrp] at hb2
          have hrec := ih fuel
            (recv_exact alwaysRun (unpack32 (pack32 p.length)) 0 []
              (recv_exact alwaysRun 4 0 [] s).2).2 junk
            (by rw [unpack_pack p.length hp32]; exact hb3)
            (by rw [unpack_pack p.length hp32]; exact hb2)
            (fun q hq => hp q (List.mem_cons_of_mem p hq))
            (by simpa using hfuel) hjunk
          have hb1u : (recv_exact alwaysRun (unpack32 (pack32 p.length)) 0 []
              (recv_exact alwaysRun 4 0 [] s).2).1 = some p := by
            rw [unpack_pack p.length hp32]
            exact hb1
          cases hdec : decode p with
          | none =>
              simp [receive_loop, ha1, pack32_ne_nil, hb1u, hpne, hdec, hrec,
                List.filterMap_cons_none hdec]
          | some img =>
              simp [receive_loop, ha1, pack32_ne_nil, hb1u, hpne, hdec, hrec,
                List.filterMap_cons_some hdec]

lemma jpeg_lossy_length (q : Nat) (px : Bytes) :
    (jpeg_lossy q px).length = px.length := by
  simp [jpeg_lossy]

lemma jpeg_decode_encode (q w h : Nat) (px : Bytes)
    (hw : w < 4294967296) (hh : h < 4294967296)
    (hlen : px.length = w * h * 3) :
    jpeg_decode (jpeg_encode q w h px) = some (w, h, jpeg_lossy q px) := by
  have hw2 := unpack_pack w hw
  have hh2 := unpack_pack h hh
  simp only [pack32] at hw2 hh2
  simp only [jpeg_encode, pack32, List.cons_append, List.nil_append,
    jpeg_decode]
  rw [hw2, hh2]
  rw [if_pos (by rw [jpeg_lossy_length, hlen])]

lemma compress_frame_ne_nil (q : Nat) (img : Img) :
    compress_frame q img ≠ [] := by
  simp [compress_frame, jpeg_encode, pack32]

instance (img : Img) : Decidable (Img.wf img) := by
  unfold Img.wf; infer_instance

lemma foldl_set_frame_last :
    ∀ (frames : List Img) (init : Option Img) (hne : frames ≠ []),
      frames.foldl set_frame init = some (frames.getLast hne) := by
  intro frames
  induction frames with
  | nil => intro init hne; exact absurd rfl hne
  | cons a rest ih =>
      intro init hne
      cases rest with
      | nil => rfl
      | cons b t =>
          rw [List.foldl_cons, List.getLast_cons (by simp : b :: t ≠ [])]
          exact ih (set_frame init a) (by simp)

lemma foldl_set_frame_mem :
    ∀ (frames : List Img) (init : Option Img) (g : Img),
      frames.foldl set_frame init = some g → g ∈ frames ∨ init = some g := by
  intro frames
  induction frames with
  | nil => intro init g hfold; exact Or.inr hfold
  | cons a rest ih =>
      intro init g hfold
      rw [List.foldl_cons] at hfold
      rcases ih (set_frame init a) g hfold with hm | he
      · exact Or.inl (List.mem_cons_of_mem a hm)
      · have hag : a = g := Option.some.inj he
        exact Or.inl (hag ▸ List.mem_cons_self a rest)

lemma stream_to_client_none (q : Nat) :
    ∀ (steps rest : List StreamStep), (∀ st ∈ steps, st.slot = none) →
      stream_to_client q (steps ++ rest) = stream_to_client q rest := by
  intro steps
  induction steps with
  | nil => intro rest hsteps; rw [List.nil_append]
  | cons a t ih =>
      intro rest hsteps
      have ha : a.slot = none := hsteps a (List.mem_cons_self a t)
      rw [List.cons_append]
      show (match a.slot with
        | none => stream_to_client q (t ++ rest)
        | some img =>
            if compress_frame q img = [] then stream_to_client q (t ++ rest)
            else if a.sendOk then
              (wire_message (compress_frame q img)
                  ++ (stream_to_client q (t ++ rest)).1,
                (stream_to_client q (t ++ rest)).2)
            else ([], true)) = stream_to_client q rest
      rw [ha]
      exact ih rest (fun st hst => hsteps st (List.mem_cons_of_mem a hst))

/-- C1: Wire framing round-trips.  For every finite sequence of payloads
written by the server as 4-byte big-endian length plus payload, the
client receive loop, fed the concatenated bytes split into arbitrary
chunks (one byte at a time included), reads back exactly the original
payload sequence in order. -/
theorem framing_roundtrip {α : Type} (decode : Bytes → Option α)
    (ps : List Bytes) (fuel : Nat) (s : Stream)
    (hwf : WF s) (hflat : flat s = wire_stream ps)
    (hp : ∀ p ∈ ps, p ≠ [] ∧ p.length < 4294967296)
    (hfuel : ps.length < fuel) :
    (receive_loop decode fuel s).1 = ps := by
  rw [receive_loop_spec decode ps fuel s [] hwf
    (by rw [hflat, List.append_nil]) hp hfuel (Or.inl (by simp))]

/-- Witness for C1: the framing of the single payload 7 delivered one
byte at a time is reassembled. -/
theorem framing_roundtrip_witness :
    (receive_loop (fun b => some b) 2 [[0], [0], [0], [1], [7]]).1
      = [[7]] :=
  framing_roundtrip (fun b => some b) [[7]] 2 [[0], [0], [0], [1], [7]]
    (by decide) (by decide) (by decide) (by decide)

/-- C2: Codec dimension round-trip.  Decoding the encoded payload of a
well-formed frame yields an image of the same width and height for
every quality in 1..100 (pixel content is lossy). -/
theorem codec_dimension_roundtrip (q : Nat) (img : Img)
    (hq1 : 1 ≤ q) (hq2 : q ≤ 100) (hwf : Img.wf img) :
    ∃ out : Img, decompress_frame (compress_frame q img) = some out ∧
      out.width = img.width ∧ out.height = img.height := by
  obtain ⟨hw, hh, hw32, hh32, hlen⟩ := hwf
  refine ⟨⟨img.width, img.height, jpeg_lossy q img.data⟩, ?_, rfl, rfl⟩
  rw [decompress_frame, compress_frame,
    jpeg_decode_encode q img.width img.height img.data hw32 hh32 hlen]

/-- Witness for C2: a 1 by 1 frame at quality 60 keeps its dimensions
through the codec. -/
theorem codec_dimension_roundtrip_witness :
    ∃ out : Img,
      decompress_frame (compress_frame 60 ⟨1, 1, [10, 20, 30]⟩) = some out ∧
        out.width = (⟨1, 1, [10, 20, 30]⟩ : Img).width ∧
        out.height = (⟨1, 1, [10, 20, 30]⟩ : Img).height :=
  codec_dimension_roundtrip 60 ⟨1, 1, [10, 20, 30]⟩ (by decide) (by decide)
    (by decide)

/-- C3: The latest-frame slot is last-write-wins.  After sequential
set_frame calls with frames F1..FN the streamer read returns FN; with no
set_frame call it returns empty; it never yields a frame that was not
written; and the read leaves the slot unchanged, so re-reading yields
the same frame again. -/
theorem slot_last_write_wins (init : Option Img) (frames : List Img)
    (hne : frames ≠ []) :
    (read_frame (frames.foldl set_frame init)).1
        = some (frames.getLast hne) ∧
      (read_frame (frames.foldl set_frame init)).2
        = frames.foldl set_frame init ∧
      (∀ g, frames.foldl set_frame none = some g → g ∈ frames) ∧
      (read_frame (([] : List Img).foldl set_frame none)).1 = none := by
  refine ⟨?_, rfl, ?_, rfl⟩
  · rw [read_frame, foldl_set_frame_last frames init hne]
  · intro g hg
    rcases foldl_set_frame_mem frames none g hg with hm | he
    · exact hm
    · cases he

/-- Witness for C3: after writing two frames the slot holds the second
one. -/
theorem slot_last_write_wins_witness :
    (read_frame ([(⟨1, 1, [0, 0, 0]⟩ : Img),
        ⟨2, 1, [1, 1, 1, 2, 2, 2]⟩].foldl set_frame none)).1
      = some ([(⟨1, 1, [0, 0, 0]⟩ : Img),
        ⟨2, 1, [1, 1, 1, 2, 2, 2]⟩].getLast (by decide)) ∧
    (read_frame ([(⟨1, 1, [0, 0, 0]⟩ : Img),
        ⟨2, 1, [1, 1, 1, 2, 2, 2]⟩].foldl set_frame none)).2
      = [(⟨1, 1, [0, 0, 0]⟩ : Img),
        ⟨2, 1, [1, 1, 1, 2, 2, 2]⟩].foldl set_frame none ∧
    (∀ g, [(⟨1, 1, [0, 0, 0]⟩ : Img),
        ⟨2, 1, [1, 1, 1, 2, 2, 2]⟩].foldl set_frame none = some g →
      g ∈ [(⟨1, 1, [0, 0, 0]⟩ : Img), ⟨2, 1, [1, 1, 1, 2, 2, 2]⟩]) ∧
    (read_frame (([] : List Img).foldl set_frame none)).1 = none :=
  slot_last_write_wins none
    [⟨1, 1, [0, 0, 0]⟩, ⟨2, 1, [1, 1, 1, 2, 2, 2]⟩] (by decide)

/-- C4: Decode failure is recovered locally.  Running the receive loop
with the decoder decompress_frame (which returns None instead of
raising), every received payload is still consumed in order and the
emitted frames are exactly the ones decompress_frame accepts: a corrupt
frame is dropped, the loop continues, and the session survives. -/
theorem decode_failure_recovered (ps : List Bytes) (fuel : Nat) (s : Stream)
    (hwf : WF s) (hflat : flat s = wire_stream ps)
    (hp : ∀ p ∈ ps, p ≠ [] ∧ p.length < 4294967296)
    (hfuel : ps.length < fuel) :
    (receive_loop decompress_frame fuel s).1 = ps ∧
      (receive_loop decompress_frame fuel s).2
        = ps.filterMap decompress_frame := by
  rw [receive_loop_spec decompress_frame ps fuel s [] hwf
    (by rw [hflat, List.append_nil]) hp hfuel (Or.inl (by simp))]
  exact ⟨rfl, rfl⟩

/-- Witness for C4: a stream carrying one corrupt 2-byte payload and
then one valid encoded frame is fully consumed. -/
theorem decode_failure_recovered_witness :
    (receive_loop decompress_frame 3
        [[0, 0, 0, 2, 1, 2, 0, 0, 0, 11,
          0, 0, 0, 1, 0, 0, 0, 1, 0, 0, 0]]).1
      = [[1, 2], [0, 0, 0, 1, 0, 0, 0, 1, 0, 0, 0]] ∧
    (receive_loop decompress_frame 3
        [[0, 0, 0, 2, 1, 2, 0, 0, 0, 11,
          0, 0, 0, 1, 0, 0, 0, 1, 0, 0, 0]]).2
      = List.filterMap decompress_frame
          [[1, 2], [0, 0, 0, 1, 0, 0, 0, 1, 0, 0, 0]] :=
  decode_failure_recovered
    [[1, 2], [0, 0, 0, 1, 0, 0, 0, 1, 0, 0, 0]] 3
    [[0, 0, 0, 2, 1, 2, 0, 0, 0, 11, 0, 0, 0, 1, 0, 0, 0, 1, 0, 0, 0]]
    (by decide) (by decide) (by decide) (by decide)

/-- C5: A connection closing mid-message is terminal, not a decode
error.  If the stream ends with an incomplete trailing fragment (a cut
4-byte header, or fewer than the advertised payload bytes), the receive
loop delivers exactly the complete messages that preceded it and
terminates the session there; the partial data is never handed to the
decoder. -/
theorem close_mid_message_terminal (ps : List Bytes) (fuel : Nat)
    (s : Stream) (junk : Bytes) (hwf : WF s)
    (hflat : flat s = wire_stream ps ++ junk)
    (hp : ∀ p ∈ ps, p ≠ [] ∧ p.length < 4294967296)
    (hfuel : ps.length < fuel) (hjunk : Incomplete junk) :
    receive_loop decompress_frame fuel s
      = (ps, ps.filterMap decompress_frame) :=
  receive_loop_spec decompress_frame ps fuel s junk hwf hflat hp hfuel hjunk

/-- Witness for C5: a header advertising 5 bytes followed by only 2
bytes before the close produces no frame and ends the session. -/
theorem close_mid_message_terminal_witness :
    receive_loop decompress_frame 1 [[0, 0, 0, 5, 1, 2]]
      = ([], List.filterMap decompress_frame []) :=
  close_mid_message_terminal [] 1 [[0, 0, 0, 5, 1, 2]]
    ([0, 0, 0, 5] ++ [1, 2]) (by decide) (by decide) (by decide)
    (by decide) (Or.inr ⟨5, [1, 2], rfl, by decide, by decide⟩)

/-- C6: A server write failure ends only that session.  A send
exception makes the streamer loop stop at once with nothing further
written and no retry; the accept loop records the session outcome and
goes on serving later events, and an accept timeout merely re-enters
the loop. -/
theorem write_failure_ends_session_only (q : Nat) (img : Img)
    (rest steps : List StreamStep) (events : List AcceptEvent) :
    stream_to_client q (StreamStep.mk (some img) false :: rest)
        = ([], true) ∧
      server_run q (AcceptEvent.conn steps :: events)
        = stream_to_client q steps :: server_run q events ∧
      server_run q (AcceptEvent.timeout :: events) = server_run q events := by
  refine ⟨?_, rfl, rfl⟩
  simp [stream_to_client, compress_frame_ne_nil]

/-- C7: No message is sent while the slot is empty.  While every
observation of the current_frame slot is None the streamer writes no
bytes at all (so in particular no zero-length or garbage message), and
the bytes of a run only start with the iterations after the first
frame is set. -/
theorem no_bytes_while_slot_empty (q : Nat)
    (steps rest : List StreamStep)
    (hnone : ∀ st ∈ steps, st.slot = none) :
    stream_to_client q steps = ([], false) ∧
      stream_to_client q (steps ++ rest) = stream_to_client q rest := by
  constructor
  · have h := stream_to_client_none q steps [] hnone
    rw [List.append_nil] at h
    rw [h]
    rfl
  · exact stream_to_client_none q steps rest hnone

/-- Witness for C7: two iterations that observe an empty slot write
nothing, and bytes can only come from later iterations. -/
theorem no_bytes_while_slot_empty_witness :
    stream_to_client 60 [StreamStep.mk none true, StreamStep.mk none false]
        = ([], false) ∧
      stream_to_client 60
          ([StreamStep.mk none true, StreamStep.mk none false]
            ++ [StreamStep.mk (some ⟨1, 1, [0, 0, 0]⟩) true])
        = stream_to_client 60 [StreamStep.mk (some ⟨1, 1, [0, 0, 0]⟩) true] :=
  no_bytes_while_slot_empty 60
    [StreamStep.mk none true, StreamStep.mk none false]
    [StreamStep.mk (some ⟨1, 1, [0, 0, 0]⟩) true] (by decide)

/-- C8 counterexample: the claim that every quality in 1..100 is
accepted by the server fails at quality 1: the ServerWindow spin box
clamps it (its range is 10..100), so 1 is not accepted. -/
theorem quality_full_range_false :
    ((1 : Int) ≥ 1 ∧ (1 : Int) ≤ 100) ∧ ¬ acceptsQuality 1 := by
  decide

/-- C8 (amended): the quality parameter is configurable over the range
10..100 at the server: every integer quality between 10 and 100 is
accepted unchanged by the server quality spin box, and it is fixed at
thread start (StreamThread stores it once at construction, and
stream_to_client uses that single value throughout). -/
theorem quality_range_amended (q : Int) (h1 : 10 ≤ q) (h2 : q ≤ 100) :
    acceptsQuality q := by
  simp only [acceptsQuality, quality_spin, setRange, setValue]
  omega

/-- Witness for the amended C8: quality 60 is accepted. -/
theorem quality_range_amended_witness : acceptsQuality 60 :=
  quality_range_amended 60 (by decide) (by decide)

/-- C9: Exact-read postcondition of recv_exact: a some result always
has exactly the requested length, whatever the running schedule and
chunking; a read whose running flag is observed false while the data is
still short yields None; and with the running flag held true a read
accumulates chunks until the requested count is complete. -/
theorem recv_exact_postcondition (run : Nat → Bool) (size i : Nat)
    (data : Bytes) (s : Stream) :
    (∀ d, (recv_exact run size i data s).1 = some d → d.length = size) ∧
      (run i = false → data.length < size →
        (recv_exact run size i data s).1 = none) ∧
      (WF s → data.length ≤ size →
        size - data.length ≤ (flat s).length →
        (recv_exact alwaysRun size i data s).1
          = some (data ++ (flat s).take (size - data.length))) := by
  refine ⟨?_, ?_, ?_⟩
  · intro d hd
    exact recv_exact_some_length run (size - data.length) size data s i d
      (Nat.le_refl _) hd
  · intro h1 h2
    exact recv_exact_stopped run size i data s h1 h2
  · intro hwf hle hlen
    exact (recv_exact_spec (size - data.length) size data s i (Nat.le_refl _)
      hwf hle hlen).1

/-- Witness for C9: a read of 2 bytes interrupted by stop() after one
byte was accumulated yields None, and the same read with the running
flag held true completes from the remaining chunks. -/
theorem recv_exact_postcondition_witness :
    (recv_exact (fun _ => false) 2 0 [5] [[1, 2]]).1 = none ∧
      (recv_exact alwaysRun 2 0 [5] [[1, 2]]).1 = some ([5] ++ [1]) := by
  constructor
  · exact (recv_exact_postcondition (fun _ => false) 2 0 [5] [[1, 2]]).2.1
      rfl (by decide)
  · exact (recv_exact_postcondition alwaysRun 2 0 [5] [[1, 2]]).2.2
      (by decide) (by decide) (by decide)

/-- C10: A zero-length WireMessage ends the client session.
recv_exact(0) returns the empty byte string, the falsiness check in the
receive loop treats it like a closed stream, and the session terminates
instead of skipping the frame: a following valid message is never
processed. -/
theorem zero_length_message_ends_session :
    (recv_exact alwaysRun 0 0 [] [[9, 9]]).1 = some [] ∧
      receive_loop (fun b => some b) 5 [[0, 0, 0, 0], [0, 0, 0, 1], [7]]
        = ([], []) := by
  constructor
  · simp [recv_exact]
  · simp [receive_loop, recv_exact, recv, alwaysRun, unpack32]

end ZDesk
